import Mathlib

/-!
# Lamport one-time signatures, forgery under key reuse, and proof-of-work

A shallow embedding of `lamport.go` and `pow.go`.

* A Go `[]byte` (and a `string` converted with `[]byte(s)`) is a `List Nat`
  whose entries are byte values; a `nil` slice and an empty slice are both `[]`
  unless a function returns a slice that callers compare with `nil`, in which
  case the result is an `Option`.
* A fixed-size Go array `[256]T` is a function `Fin 256 → T`, so indexing with a
  loop counter below 256 is total, exactly as in Go.
* A run-time panic (index out of range) is the outer `none` of an `Option`.
* `crypto/sha256` is embedded as an executable function following FIPS 180-4.
-/

namespace LamportPow

/-- A byte string: the contents of a Go `[]byte`. -/
abbrev Bytes := List Nat

/-! ## SHA-256 (`crypto/sha256.Sum256`) -/

/-- The 64 round constants of SHA-256. -/
def K256 : List Nat := [
  0x428a2f98, 0x71374491, 0xb5c0fbcf, 0xe9b5dba5, 0x3956c25b, 0x59f111f1, 0x923f82a4, 0xab1c5ed5,
  0xd807aa98, 0x12835b01, 0x243185be, 0x550c7dc3, 0x72be5d74, 0x80deb1fe, 0x9bdc06a7, 0xc19bf174,
  0xe49b69c1, 0xefbe4786, 0x0fc19dc6, 0x240ca1cc, 0x2de92c6f, 0x4a7484aa, 0x5cb0a9dc, 0x76f988da,
  0x983e5152, 0xa831c66d, 0xb00327c8, 0xbf597fc7, 0xc6e00bf3, 0xd5a79147, 0x06ca6351, 0x14292967,
  0x27b70a85, 0x2e1b2138, 0x4d2c6dfc, 0x53380d13, 0x650a7354, 0x766a0abb, 0x81c2c92e, 0x92722c85,
  0xa2bfe8a1, 0xa81a664b, 0xc24b8b70, 0xc76c51a3, 0xd192e819, 0xd6990624, 0xf40e3585, 0x106aa070,
  0x19a4c116, 0x1e376c08, 0x2748774c, 0x34b0bcb5, 0x391c0cb3, 0x4ed8aa4a, 0x5b9cca4f, 0x682e6ff3,
  0x748f82ee, 0x78a5636f, 0x84c87814, 0x8cc70208, 0x90befffa, 0xa4506ceb, 0xbef9a3f7, 0xc67178f2]

/-- Rotate a 32-bit word right by `n` bits. -/
def rotr32 (x n : Nat) : Nat := ((x >>> n) ||| (x <<< (32 - n))) % 2 ^ 32

def bigSigma0 (x : Nat) : Nat := rotr32 x 2 ^^^ rotr32 x 13 ^^^ rotr32 x 22

def bigSigma1 (x : Nat) : Nat := rotr32 x 6 ^^^ rotr32 x 11 ^^^ rotr32 x 25

def smallSigma0 (x : Nat) : Nat := rotr32 x 7 ^^^ rotr32 x 18 ^^^ (x >>> 3)

def smallSigma1 (x : Nat) : Nat := rotr32 x 17 ^^^ rotr32 x 19 ^^^ (x >>> 10)

def ch (x y z : Nat) : Nat := (x &&& y) ^^^ ((x ^^^ 0xffffffff) &&& z)

def maj (x y z : Nat) : Nat := (x &&& y) ^^^ (x &&& z) ^^^ (y &&& z)

/-- Message padding: the byte 0x80, zero bytes up to 56 modulo 64, then the
bit length as 8 big-endian bytes. -/
def sha256Pad (msg : Bytes) : Bytes :=
  let l := msg.length
  let bits := (8 * l) % 2 ^ 64
  msg.map (fun b => b % 256) ++ [0x80] ++ List.replicate ((119 - l % 64) % 64) 0 ++
    (List.range 8).map (fun k => (bits >>> (8 * (7 - k))) % 256)

/-- The first `n` big-endian 32-bit words of a byte string. -/
def beWords : Nat → Bytes → List Nat
  | 0, _ => []
  | n + 1, b0 :: b1 :: b2 :: b3 :: rest =>
      (b0 * 2 ^ 24 + b1 * 2 ^ 16 + b2 * 2 ^ 8 + b3) :: beWords n rest
  | _ + 1, _ => []

/-- Extend the message schedule by `n` words; `w` holds the words computed so
far, latest first. -/
def schedule : Nat → List Nat → List Nat
  | 0, w => w
  | n + 1, w =>
      schedule n
        (((smallSigma1 (w.getD 1 0) + w.getD 6 0 + smallSigma0 (w.getD 14 0) + w.getD 15 0)
            % 2 ^ 32) :: w)

/-- The eight working variables of SHA-256. -/
structure HashState where
  a : Nat
  b : Nat
  c : Nat
  d : Nat
  e : Nat
  f : Nat
  g : Nat
  h : Nat

def shaRound (s : HashState) (k w : Nat) : HashState :=
  let t1 := (s.h + bigSigma1 s.e + ch s.e s.f s.g + k + w) % 2 ^ 32
  let t2 := (bigSigma0 s.a + maj s.a s.b s.c) % 2 ^ 32
  ⟨(t1 + t2) % 2 ^ 32, s.a, s.b, s.c, (s.d + t1) % 2 ^ 32, s.e, s.f, s.g⟩

def shaRounds : HashState → List Nat → List Nat → HashState
  | s, k :: ks, w :: ws => shaRounds (shaRound s k w) ks ws
  | s, _, _ => s

/-- Compression of one 64-byte block. -/
def compress (s : HashState) (block : Bytes) : HashState :=
  let w := (schedule 48 (beWords 16 block).reverse).reverse
  let t := shaRounds s K256 w
  ⟨(s.a + t.a) % 2 ^ 32, (s.b + t.b) % 2 ^ 32, (s.c + t.c) % 2 ^ 32, (s.d + t.d) % 2 ^ 32,
   (s.e + t.e) % 2 ^ 32, (s.f + t.f) % 2 ^ 32, (s.g + t.g) % 2 ^ 32, (s.h + t.h) % 2 ^ 32⟩

def shaBlocks : Nat → HashState → Bytes → HashState
  | 0, s, _ => s
  | n + 1, s, bs => shaBlocks n (compress s (bs.take 64)) (bs.drop 64)

def wordBytes (w : Nat) : Bytes :=
  [(w >>> 24) % 256, (w >>> 16) % 256, (w >>> 8) % 256, w % 256]

def initHashState : HashState :=
  ⟨0x6a09e667, 0xbb67ae85, 0x3c6ef372, 0xa54ff53a, 0x510e527f, 0x9b05688c, 0x1f83d9ab, 0x5be0cd19⟩

/-- The digest `sha256.Sum256(msg)`: always 32 bytes. -/
def sha256Sum256 (msg : Bytes) : Bytes :=
  let p := sha256Pad msg
  let s := shaBlocks (p.length / 64) initHashState p
  wordBytes s.a ++ wordBytes s.b ++ wordBytes s.c ++ wordBytes s.d ++
  wordBytes s.e ++ wordBytes s.f ++ wordBytes s.g ++ wordBytes s.h

/-- The bytes of an ASCII string literal, as `[]byte(s)` gives them. -/
def asciiBytes (s : String) : Bytes := s.toList.map Char.toNat

/-! ## `lamport.go` -/

/-- The struct `PrivateKey`: `Pairs [256][2][]byte`. -/
structure PrivateKey where
  Pairs : Fin 256 → Fin 2 → Bytes

/-- The struct `PublicKey`: `Hashes [256][2][]byte`. -/
structure PublicKey where
  Hashes : Fin 256 → Fin 2 → Bytes

/-- A signature, `[256][]byte`. -/
abbrev Signature := Fin 256 → Bytes

/-- The zero value of `[256][]byte`: every element is the nil slice. -/
def zeroSignature : Signature := fun _ => []

/-- The assignment `signature[i] = v`. -/
def setIndex (signature : Signature) (i : Fin 256) (v : Bytes) : Signature :=
  fun k => if k = i then v else signature k

/-- The bit the three loops compute at position `i`:
`byteIndex := i / 8; bitIndex := uint(i % 8); bit := (messageHash[byteIndex] >> bitIndex) & 1`.
The digest has 32 bytes, so `byteIndex` is in range and the default of `getD`
is never taken on a digest. -/
def digestBit (messageHash : Bytes) (i : Fin 256) : Fin 2 :=
  ⟨(messageHash.getD (i.val / 8) 0 >>> (i.val % 8)) &&& 1, Nat.lt_succ_of_le Nat.and_le_right⟩

/-- The function `equalBytes`, its loop walking both slices in step once the
lengths are known to agree. -/
def equalBytesLoop : Bytes → Bytes → Bool
  | x :: xs, y :: ys => if x != y then false else equalBytesLoop xs ys
  | _, _ => true

def equalBytes (a b : Bytes) : Bool :=
  if a.length != b.length then false else equalBytesLoop a b

/-- The function `Sign`: the loop over `i = 0 .. 255` stores
`privateKey.Pairs[i][bit]` at `signature[i]`. -/
def Sign (message : Bytes) (privateKey : PrivateKey) : Signature :=
  let messageHash := sha256Sum256 message
  (List.finRange 256).foldl
    (fun signature i => setIndex signature i (privateKey.Pairs i (digestBit messageHash i)))
    zeroSignature

/-- The loop of `Verify` over the positions still to be checked, returning
false at the first mismatch. -/
def verifyLoop (messageHash : Bytes) (signature : Signature) (publicKey : PublicKey) :
    List (Fin 256) → Bool
  | [] => true
  | i :: rest =>
      let sigHash := sha256Sum256 (signature i)
      if !equalBytes sigHash (publicKey.Hashes i (digestBit messageHash i)) then false
      else verifyLoop messageHash signature publicKey rest

/-- The function `Verify`. -/
def Verify (message : Bytes) (signature : Signature) (publicKey : PublicKey) : Bool :=
  verifyLoop (sha256Sum256 message) signature publicKey (List.finRange 256)

/-- The inner loop `for j := range signatures` of `ForgeSignature` at position
`i`, from index `j` on. The result is `none` when `messages[j]` is out of range
(a panic), `some (some v)` when the loop breaks after choosing `v` for
`forgedSignature[i]`, and `some none` when the loop ends without a match. -/
def forgeScan (bit : Fin 2) (i : Fin 256) (messages : List Bytes) :
    Nat → List Signature → Option (Option Bytes)
  | _, [] => some none
  | j, sig :: rest =>
      match messages.get? j with
      | none => none
      | some m =>
          let sigMessageHash := sha256Sum256 m
          if digestBit sigMessageHash i = bit then some (some (sig i))
          else forgeScan bit i messages (j + 1) rest

/-- The outer loop of `ForgeSignature` over the positions still to be filled. -/
def forgeLoop (messageHash : Bytes) (messages : List Bytes) (signatures : List Signature) :
    List (Fin 256) → Signature → Option Signature
  | [], forged => some forged
  | i :: rest, forged =>
      match forgeScan (digestBit messageHash i) i messages 0 signatures with
      | none => none
      | some none => forgeLoop messageHash messages signatures rest forged
      | some (some v) => forgeLoop messageHash messages signatures rest (setIndex forged i v)

/-- The function `ForgeSignature`; `none` is an index-out-of-range panic. -/
def ForgeSignature (message : Bytes) (messages : List Bytes) (signatures : List Signature) :
    Option Signature :=
  forgeLoop (sha256Sum256 message) messages signatures (List.finRange 256) zeroSignature

/-- The relation between the two keys that `GenerateKey` establishes:
`publicKey.Hashes[i][j] = sha256.Sum256(privateKey.Pairs[i][j])`. -/
def KeyPair (sk : PrivateKey) (pk : PublicKey) : Prop :=
  ∀ (i : Fin 256) (b : Fin 2), pk.Hashes i b = sha256Sum256 (sk.Pairs i b)

/-! ## `pow.go` -/

/-- The nonce buffer: `binary.BigEndian.PutUint64(nonceBytes, nonce)`. -/
def putUint64 (nonce : Nat) : Bytes :=
  (List.range 8).map (fun k => (nonce >>> (8 * (7 - k))) % 256)

/-- The loop `for i := 0; i < fullBytes; i++ { if hash[i] != 0 {...} }` with
`n` iterations left at index `i`: `some true` when every byte read is zero,
`some false` at the first non-zero byte, `none` when `hash[i]` is out of range. -/
def zeroBytesLoop (hash : Bytes) : Nat → Nat → Option Bool
  | 0, _ => some true
  | n + 1, i =>
      match hash.get? i with
      | none => none
      | some b => if b != 0 then some false else zeroBytesLoop hash n (i + 1)

/-- The mask `byte(0xFF) << (8 - remainingBits)`, truncated to a byte. -/
def topMask (remainingBits : Int) : Nat :=
  (0xFF <<< (8 - remainingBits).toNat) % 256

/-- The validity test inside the loop of `Mine` on one digest. -/
def mineValid (hash : Bytes) (fullBytes remainingBits : Int) (targetMask : Nat) : Option Bool :=
  match zeroBytesLoop hash fullBytes.toNat 0 with
  | none => none
  | some false => some false
  | some true =>
      if remainingBits > 0 then
        match hash.get? fullBytes.toNat with
        | none => none
        | some b => some (b &&& targetMask == 0)
      else some true

/-- The search loop of `Mine` with `fuel` iterations left, at `nonce`. The
result `some (0, none)` is the statement `return 0, nil` after the loop. -/
def mineLoop (prefixBytes : Bytes) (fullBytes remainingBits : Int) (targetMask : Nat) :
    Nat → Nat → Option (Nat × Option Bytes)
  | 0, _ => some (0, none)
  | fuel + 1, nonce =>
      let data := prefixBytes ++ putUint64 nonce
      let hash := sha256Sum256 data
      match mineValid hash fullBytes remainingBits targetMask with
      | none => none
      | some true => some (nonce, some hash)
      | some false => mineLoop prefixBytes fullBytes remainingBits targetMask fuel (nonce + 1)

/-- The bound `maxNonce := uint64(math.MaxUint64)`. -/
def maxNonce : Nat := 2 ^ 64 - 1

/-- The function `Mine`. Go's `/` and `%` on `int` truncate toward zero. The
loop `for nonce = 0; nonce < maxNonce; nonce++` runs at most `maxNonce` times. -/
def Mine (prefixBytes : Bytes) (difficulty : Int) : Option (Nat × Option Bytes) :=
  let fullBytes := difficulty.tdiv 8
  let remainingBits := difficulty.tmod 8
  let targetMask := if remainingBits > 0 then topMask remainingBits else 0
  mineLoop prefixBytes fullBytes remainingBits targetMask maxNonce 0

/-- The function `checkLeadingZeros`; `none` is an index-out-of-range panic. -/
def checkLeadingZeros (hash : Bytes) (difficulty : Int) : Option Bool :=
  if difficulty ≤ 0 then some true
  else
    let fullBytes := difficulty.tdiv 8
    match zeroBytesLoop hash fullBytes.toNat 0 with
    | none => none
    | some false => some false
    | some true =>
        let remainingBits := difficulty.tmod 8
        if remainingBits > 0 then
          match hash.get? fullBytes.toNat with
          | none => none
          | some b => some (b &&& topMask remainingBits == 0)
        else some true

/-! ## Sample keys -/

/-- The public key `GenerateKey` stores next to a private key:
`hash := sha256.Sum256(privKeyBytes); publicKey.Hashes[i][j] = hash[:]`. -/
def publicOf (sk : PrivateKey) : PublicKey :=
  ⟨fun i j => sha256Sum256 (sk.Pairs i j)⟩

/-- A private key with 512 distinct 32-byte secrets: the secret at position
`i`, half `j`, is the bytes `i, j` followed by thirty zero bytes. -/
def samplePrivateKey : PrivateKey :=
  ⟨fun i j => i.val :: j.val :: List.replicate 30 0⟩

/-- A private key whose 512 secrets are all the same 32 zero bytes, as
`GenerateKey` returns when the random source yields only zero bytes. -/
def zeroPrivateKey : PrivateKey :=
  ⟨fun _ _ => List.replicate 32 0⟩

/-- The corpus messages of `TestForgery` and `demonstrateForgery`. -/
def sampleMessages : List Bytes :=
  [asciiBytes "Message 1", asciiBytes "Message 2", asciiBytes "Message 3",
   asciiBytes "Message 4"]

/-- The loop `signatures[i] = Sign(msg, privateKey)` of `TestForgery`. -/
def signAll (messages : List Bytes) (sk : PrivateKey) : List Signature :=
  messages.map (fun msg => Sign msg sk)

/-- The message forged in `TestForgery` and `demonstrateForgery`. -/
def forgedMessage : Bytes := asciiBytes "I am forger@example.com forging this message"

/-- Ten messages signed under one key. -/
def tenMessages : List Bytes :=
  [asciiBytes "Message 1", asciiBytes "Message 2", asciiBytes "Message 3",
   asciiBytes "Message 4", asciiBytes "Message 5", asciiBytes "Message 6",
   asciiBytes "Message 7", asciiBytes "Message 8", asciiBytes "Message 9",
   asciiBytes "Message 10"]

/-! ## The leading-zero-bit test in the words of the specification -/

/-- Bit `k` of a digest, read byte by byte with the most significant bit of
each byte first. -/
def msbBit (h : Bytes) (k : Nat) : Nat :=
  (h.getD (k / 8) 0 >>> (7 - k % 8)) &&& 1

/-- The `d` most significant bits of the digest are all zero. -/
def leadingZeroBits (h : Bytes) (d : Nat) : Prop :=
  ∀ k, k < d → msbBit h k = 0

/-- The first `d / 8` bytes are zero and, when `d % 8 ≠ 0`, the top `d % 8`
bits of the next byte are zero. -/
def leadingZeroBytes (h : Bytes) (d : Nat) : Prop :=
  (∀ j, j < d / 8 → h.getD j 0 = 0) ∧
    (d % 8 ≠ 0 → ∀ t, t < d % 8 → (h.getD (d / 8) 0 >>> (7 - t)) &&& 1 = 0)

/-- The test `nonce == 0 && hash == nil` that `PrintPOW` and the tests apply
to the two results of `Mine`. -/
def isNotFound (nonce : Nat) (hash : Option Bytes) : Bool :=
  nonce == 0 && hash.isNone

/-- The range check of `main` before any mining: the program exits when
`*difficulty < 0 || *difficulty > 256`. -/
def difficultyAccepted (difficulty : Int) : Bool :=
  !(decide (difficulty < 0) || decide (difficulty > 256))

/-! ## `GenerateKey` -/

/-- The random source as `GenerateKey` sees it through `rand.Read`: the bytes
it delivers, in order, and for each call whether it returns an error. -/
structure RandSource where
  stream : Nat → Nat
  failsAt : Nat → Bool

/-- The `k`-th call `rand.Read(privKeyBytes)` on a buffer made with
`make([]byte, 32)`: an error, or the buffer filled with the next 32 bytes. -/
def randRead (rnd : RandSource) (k : Nat) : Option Bytes :=
  if rnd.failsAt k then none
  else some ((List.range 32).map (fun t => rnd.stream (32 * k + t) % 256))

/-- The assignment `a[i][j] = v` on a `[256][2][]byte`. -/
def setPair (a : Fin 256 → Fin 2 → Bytes) (i : Fin 256) (j : Fin 2) (v : Bytes) :
    Fin 256 → Fin 2 → Bytes :=
  fun x y => if x = i ∧ y = j then v else a x y

/-- The slots `(i, j)` in the order the nested loops of `GenerateKey` visit them. -/
def keySlots : List (Fin 256 × Fin 2) :=
  (List.finRange 256).flatMap (fun i => [(i, 0), (i, 1)])

/-- The nested loops of `GenerateKey` over the slots still to be filled, `k`
calls of `rand.Read` having been made; `none` is `panic(err)`. -/
def generateLoop (rnd : RandSource) :
    List (Fin 256 × Fin 2) → Nat → PrivateKey → PublicKey → Option (PrivateKey × PublicKey)
  | [], _, privateKey, publicKey => some (privateKey, publicKey)
  | (i, j) :: rest, k, privateKey, publicKey =>
      match randRead rnd k with
      | none => none
      | some privKeyBytes =>
          let hash := sha256Sum256 privKeyBytes
          generateLoop rnd rest (k + 1) ⟨setPair privateKey.Pairs i j privKeyBytes⟩
            ⟨setPair publicKey.Hashes i j hash⟩

/-- The function `GenerateKey`, both keys starting as zero values. -/
def GenerateKey (rnd : RandSource) : Option (PrivateKey × PublicKey) :=
  generateLoop rnd keySlots 0 ⟨fun _ _ => []⟩ ⟨fun _ _ => []⟩

/-- A random source that never fails and delivers only zero bytes. -/
def zeroRand : RandSource := ⟨fun _ => 0, fun _ => false⟩

/-- The memory a call of `Sign` works on: the key behind its pointer argument
`privateKey` and its local array `signature`. -/
structure SignState where
  privateKey : PrivateKey
  signature : Signature

/-- The body of the loop of `Sign` at position `i` as a step on that memory. It
reads `privateKey.Pairs[i][bit]` from the memory as it is at that moment, and
its one assignment is `signature[i] = privateKey.Pairs[i][bit]`. -/
def signStep (messageHash : Bytes) (st : SignState) (i : Fin 256) : SignState :=
  { st with
    signature := setIndex st.signature i (st.privateKey.Pairs i (digestBit messageHash i)) }

/-- A call `Sign(message, privateKey)` run on the memory: `signature` starts as
the zero value of `[256][]byte` and the loop body runs for `i = 0 .. 255`. The
result holds the returned array and the key as the call leaves it. -/
def signRun (message : Bytes) (privateKey : PrivateKey) : SignState :=
  (List.finRange 256).foldl (signStep (sha256Sum256 message)) ⟨privateKey, zeroSignature⟩

/-! ## Basic facts -/

theorem sha256Sum256_length (msg : Bytes) : (sha256Sum256 msg).length = 32 := by
  simp [sha256Sum256, wordBytes]

theorem sha256Sum256_lt (msg : Bytes) : ∀ x ∈ sha256Sum256 msg, x < 256 := by
  intro x hx
  simp only [sha256Sum256, wordBytes, List.mem_append, List.mem_cons, List.mem_singleton,
    List.not_mem_nil, or_false] at hx
  have h256 : ∀ y : Nat, y % 256 < 256 := fun y => Nat.mod_lt _ (by norm_num)
  rcases hx with ((((((h | h) | h) | h) | h) | h) | h) | h <;>
    rcases h with h | h | h | h <;> rw [h] <;> exact h256 _

theorem equalBytesLoop_iff (a b : Bytes) (h : a.length = b.length) :
    equalBytesLoop a b = true ↔ a = b := by
  induction a generalizing b with
  | nil =>
    cases b with
    | nil => simp [equalBytesLoop]
    | cons y ys => simp at h
  | cons x xs ih =>
    cases b with
    | nil => simp at h
    | cons y ys =>
      have hl : xs.length = ys.length := by simpa using h
      by_cases hxy : x = y
      · simp [equalBytesLoop, hxy, ih ys hl]
      · simp [equalBytesLoop, hxy]

theorem equalBytes_iff (a b : Bytes) : equalBytes a b = true ↔ a = b := by
  unfold equalBytes
  by_cases h : a.length = b.length
  · simp [h, equalBytesLoop_iff a b h]
  · have hne : a ≠ b := fun e => h (by rw [e])
    simp [h, hne]

theorem foldl_setIndex_apply (f : Fin 256 → Bytes) (l : List (Fin 256)) (init : Signature)
    (k : Fin 256) :
    (l.foldl (fun s i => setIndex s i (f i)) init) k = if k ∈ l then f k else init k := by
  induction l generalizing init with
  | nil => simp
  | cons a l ih =>
    simp only [List.foldl_cons, ih, List.mem_cons]
    by_cases hk : k ∈ l
    · simp [hk]
    · by_cases hka : k = a
      · subst hka; simp [hk, setIndex]
      · simp [hk, hka, setIndex]

theorem sign_apply (message : Bytes) (sk : PrivateKey) (i : Fin 256) :
    Sign message sk i = sk.Pairs i (digestBit (sha256Sum256 message) i) := by
  have h := foldl_setIndex_apply (fun i => sk.Pairs i (digestBit (sha256Sum256 message) i))
    (List.finRange 256) zeroSignature i
  simpa [List.mem_finRange] using h

theorem verifyLoop_iff (messageHash : Bytes) (signature : Signature) (pk : PublicKey)
    (l : List (Fin 256)) :
    verifyLoop messageHash signature pk l = true ↔
      ∀ i ∈ l, sha256Sum256 (signature i) = pk.Hashes i (digestBit messageHash i) := by
  induction l with
  | nil => simp [verifyLoop]
  | cons a l ih =>
    by_cases h : sha256Sum256 (signature a) = pk.Hashes a (digestBit messageHash a)
    · have he := (equalBytes_iff _ _).2 h
      simp only [verifyLoop, he, List.mem_cons, forall_eq_or_imp]
      simpa [h] using ih
    · have he : equalBytes (sha256Sum256 (signature a)) (pk.Hashes a (digestBit messageHash a))
          = false := by
        cases hb : equalBytes (sha256Sum256 (signature a)) (pk.Hashes a (digestBit messageHash a))
        · rfl
        · exact absurd ((equalBytes_iff _ _).1 hb) h
      simp only [verifyLoop, he, List.mem_cons, forall_eq_or_imp]
      simp [h]

theorem verify_iff (message : Bytes) (signature : Signature) (pk : PublicKey) :
    Verify message signature pk = true ↔
      ∀ i, sha256Sum256 (signature i) = pk.Hashes i (digestBit (sha256Sum256 message) i) := by
  unfold Verify
  rw [verifyLoop_iff]
  simp [List.mem_finRange]


theorem keyPair_publicOf (sk : PrivateKey) : KeyPair sk (publicOf sk) :=
  fun _ _ => rfl

theorem bit_eq_div_mod (x t : Nat) : (x >>> t) &&& 1 = x / 2 ^ t % 2 := by
  rw [Nat.and_one_is_mod, Nat.shiftRight_eq_div_pow]

theorem byte_eq_of_bits (x y : Nat) (hx : x < 256) (hy : y < 256)
    (h : ∀ t < 8, (x >>> t) &&& 1 = (y >>> t) &&& 1) : x = y := by
  apply Nat.eq_of_testBit_eq
  intro t
  by_cases ht : t < 8
  · have h1 := h t ht
    rw [bit_eq_div_mod, bit_eq_div_mod] at h1
    rw [Nat.testBit_to_div_mod, Nat.testBit_to_div_mod, h1]
  · have h8 : 2 ^ 8 ≤ 2 ^ t := Nat.pow_le_pow_right (by norm_num) (by omega)
    rw [Nat.testBit_lt_two_pow (lt_of_lt_of_le hx h8),
      Nat.testBit_lt_two_pow (lt_of_lt_of_le hy h8)]

theorem digest_eq_of_bits (a b : Bytes) (ha : a.length = 32) (hb : b.length = 32)
    (hal : ∀ x ∈ a, x < 256) (hbl : ∀ x ∈ b, x < 256)
    (h : ∀ i : Fin 256, digestBit a i = digestBit b i) : a = b := by
  apply List.ext_getElem (by rw [ha, hb])
  intro k hka hkb
  apply byte_eq_of_bits _ _ (hal _ (List.getElem_mem _)) (hbl _ (List.getElem_mem _))
  intro t ht
  have hk : k < 32 := by rw [← ha]; exact hka
  have hi := h ⟨8 * k + t, by omega⟩
  have e1 : (8 * k + t) / 8 = k := by omega
  have e2 : (8 * k + t) % 8 = t := by omega
  simp only [digestBit, Fin.mk.injEq, e1, e2] at hi
  rw [List.getD_eq_getElem _ _ hka, List.getD_eq_getElem _ _ hkb] at hi
  exact hi

theorem exists_bit_ne_of_digest_ne (m1 m2 : Bytes) (h : sha256Sum256 m1 ≠ sha256Sum256 m2) :
    ∃ i : Fin 256, digestBit (sha256Sum256 m1) i ≠ digestBit (sha256Sum256 m2) i := by
  by_contra hcon
  push_neg at hcon
  exact h (digest_eq_of_bits _ _ (sha256Sum256_length _) (sha256Sum256_length _)
    (sha256Sum256_lt _) (sha256Sum256_lt _) hcon)

/-- C1. Round trip: when the public key holds the digests of the private key's
secrets, every message signed with the private key verifies against the public
key; the message is arbitrary, so this holds for each of any number of
messages signed under the same key. -/
theorem Verify_Sign_roundtrip (sk : PrivateKey) (pk : PublicKey) (hk : KeyPair sk pk)
    (m : Bytes) : Verify m (Sign m sk) pk = true := by
  rw [verify_iff]
  intro i
  rw [sign_apply, hk]

theorem Verify_Sign_roundtrip_witness :
    KeyPair samplePrivateKey (publicOf samplePrivateKey) ∧
      Verify (asciiBytes "Test message") (Sign (asciiBytes "Test message") samplePrivateKey)
        (publicOf samplePrivateKey) = true :=
  ⟨keyPair_publicOf _, Verify_Sign_roundtrip _ _ (keyPair_publicOf _) _⟩

/-- C2. For every message, private key and position `i`, byte `i / 8` of the
message digest exists and `Sign` puts at position `i` the secret
`Pairs[i][bit]` with `bit = (digest[i/8] >> (i%8)) & 1`. -/
theorem Sign_selects_digest_bit (m : Bytes) (sk : PrivateKey) (i : Fin 256) :
    ∃ byte, (sha256Sum256 m).get? (i.val / 8) = some byte ∧
      ∃ h : (byte >>> (i.val % 8)) &&& 1 < 2,
        Sign m sk i = sk.Pairs i ⟨(byte >>> (i.val % 8)) &&& 1, h⟩ := by
  have hlen : i.val / 8 < (sha256Sum256 m).length := by
    rw [sha256Sum256_length]; omega
  refine ⟨(sha256Sum256 m)[i.val / 8], ?_, Nat.lt_succ_of_le Nat.and_le_right, ?_⟩
  · simp [List.getElem?_eq_getElem hlen]
  · rw [sign_apply]
    simp only [digestBit, List.getD_eq_getElem _ _ hlen]

/-- C3. `Verify` returns true exactly when at every one of the 256 positions
the digest of the signature element equals `Hashes[i][bit_i]`, with `bit_i` the
`i`-th bit of the message digest; one mismatching position makes it false. -/
theorem Verify_true_iff_all_positions (m : Bytes) (sig : Signature) (pk : PublicKey) :
    (Verify m sig pk = true ↔
      ∀ i : Fin 256, sha256Sum256 (sig i) = pk.Hashes i (digestBit (sha256Sum256 m) i)) ∧
    ((∃ i : Fin 256, sha256Sum256 (sig i) ≠ pk.Hashes i (digestBit (sha256Sum256 m) i)) →
      Verify m sig pk = false) := by
  refine ⟨verify_iff m sig pk, ?_⟩
  rintro ⟨i, hi⟩
  cases hv : Verify m sig pk
  · rfl
  · exact absurd ((verify_iff m sig pk).1 hv i) hi

theorem fin2_cases (P : Fin 2 → Fin 2 → Prop) (h01 : P 0 1) (h10 : P 1 0) :
    ∀ b1 b2 : Fin 2, b1 ≠ b2 → P b1 b2 := by
  intro b1 b2 hb
  fin_cases b1 <;> fin_cases b2
  · exact absurd rfl hb
  · exact h01
  · exact h10
  · exact absurd rfl hb

theorem sha_testMessage_ne :
    sha256Sum256 (asciiBytes "Test message") ≠ sha256Sum256 (asciiBytes "Different message") := by
  decide!

/-- C4, counterexample. With the key whose 512 secrets are all the same 32 zero
bytes (and the public key holding their digests), the signature of
"Test message" verifies for "Different message", although the two digests
differ. -/
theorem wrong_message_accepted_for_equal_halves :
    KeyPair zeroPrivateKey (publicOf zeroPrivateKey) ∧
      sha256Sum256 (asciiBytes "Test message") ≠ sha256Sum256 (asciiBytes "Different message") ∧
      Verify (asciiBytes "Different message")
        (Sign (asciiBytes "Test message") zeroPrivateKey) (publicOf zeroPrivateKey) = true := by
  refine ⟨keyPair_publicOf _, sha_testMessage_ne, ?_⟩
  rw [verify_iff]
  intro i
  rw [sign_apply]
  rfl

/-- C4, amended. For a key pair generated together and messages `m1`, `m2`
whose digests differ, a signature of `m1` does not verify for `m2` when the two
public hashes differ at every position; more precisely, it does not verify as
soon as the two public hashes differ at one position where the two digests
differ in their bit. -/
theorem wrong_message_rejected (sk : PrivateKey) (pk : PublicKey) (hk : KeyPair sk pk)
    (m1 m2 : Bytes) :
    (sha256Sum256 m1 ≠ sha256Sum256 m2 → (∀ i : Fin 256, pk.Hashes i 0 ≠ pk.Hashes i 1) →
      Verify m2 (Sign m1 sk) pk = false) ∧
    (∀ i : Fin 256, digestBit (sha256Sum256 m1) i ≠ digestBit (sha256Sum256 m2) i →
      pk.Hashes i 0 ≠ pk.Hashes i 1 → Verify m2 (Sign m1 sk) pk = false) := by
  have point : ∀ i : Fin 256, digestBit (sha256Sum256 m1) i ≠ digestBit (sha256Sum256 m2) i →
      pk.Hashes i 0 ≠ pk.Hashes i 1 → Verify m2 (Sign m1 sk) pk = false := by
    intro i hi hd
    cases hv : Verify m2 (Sign m1 sk) pk
    · rfl
    · exfalso
      have h1 := (verify_iff _ _ _).1 hv i
      rw [sign_apply, ← hk] at h1
      exact fin2_cases (fun b1 b2 => pk.Hashes i b1 = pk.Hashes i b2 → False)
        (fun he => hd he) (fun he => hd he.symm) _ _ hi h1
  refine ⟨?_, point⟩
  intro hne hd
  obtain ⟨i, hi⟩ := exists_bit_ne_of_digest_ne m1 m2 hne
  exact point i hi (hd i)

theorem wrong_message_rejected_witness :
    KeyPair samplePrivateKey (publicOf samplePrivateKey) ∧
      Verify (asciiBytes "Different message")
        (Sign (asciiBytes "Test message") samplePrivateKey) (publicOf samplePrivateKey)
        = false :=
  ⟨keyPair_publicOf _,
    (wrong_message_rejected samplePrivateKey (publicOf samplePrivateKey) (keyPair_publicOf _)
      (asciiBytes "Test message") (asciiBytes "Different message")).2 1
      (by decide!) (by decide!)⟩

/-! ## The forgery loops -/

theorem forgeScan_shift (bit : Fin 2) (i : Fin 256) (m : Bytes) (ms : List Bytes)
    (sigs : List Signature) (j : Nat) :
    forgeScan bit i (m :: ms) (j + 1) sigs = forgeScan bit i ms j sigs := by
  induction sigs generalizing j with
  | nil => rfl
  | cons sig rest ih =>
    simp only [forgeScan, List.get?_cons_succ]
    cases ms.get? j with
    | none => rfl
    | some x => simp only [ih]

theorem forgeScan_nil_messages (bit : Fin 2) (i : Fin 256) (sig : Signature)
    (rest : List Signature) : forgeScan bit i [] 0 (sig :: rest) = none := rfl

theorem forgeScan_cons (bit : Fin 2) (i : Fin 256) (m : Bytes) (ms : List Bytes)
    (sig : Signature) (rest : List Signature) :
    forgeScan bit i (m :: ms) 0 (sig :: rest) =
      if digestBit (sha256Sum256 m) i = bit then some (some (sig i))
      else forgeScan bit i ms 0 rest := by
  simp only [forgeScan, List.get?_cons_zero, forgeScan_shift]

theorem forgeLoop_none_iff (h : Bytes) (ms : List Bytes) (sigs : List Signature)
    (l : List (Fin 256)) (init : Signature) :
    forgeLoop h ms sigs l init = none ↔
      ∃ i ∈ l, forgeScan (digestBit h i) i ms 0 sigs = none := by
  induction l generalizing init with
  | nil => simp [forgeLoop]
  | cons a l ih =>
    simp only [forgeLoop, List.mem_cons, exists_eq_or_imp]
    cases hs : forgeScan (digestBit h a) a ms 0 sigs with
    | none => simp
    | some r =>
      cases r with
      | none => simp [ih]
      | some v => simp [ih]

theorem forgeLoop_some (h : Bytes) (ms : List Bytes) (sigs : List Signature)
    (l : List (Fin 256)) (init g : Signature)
    (hg : forgeLoop h ms sigs l init = some g) (k : Fin 256) :
    g k = if k ∈ l then
        (match forgeScan (digestBit h k) k ms 0 sigs with
          | some (some v) => v
          | _ => init k)
      else init k := by
  induction l generalizing init with
  | nil =>
    simp only [forgeLoop, Option.some.injEq] at hg
    simp [← hg]
  | cons a l ih =>
    simp only [forgeLoop] at hg
    cases hs : forgeScan (digestBit h a) a ms 0 sigs with
    | none => rw [hs] at hg; simp at hg
    | some r =>
      rw [hs] at hg
      cases r with
      | none =>
        simp only at hg
        rw [ih init hg]
        by_cases hk : k ∈ l
        · simp [hk]
        · by_cases hka : k = a
          · subst hka; simp [hk, hs]
          · simp [hk, hka]
      | some v =>
        simp only at hg
        rw [ih _ hg]
        by_cases hka : k = a
        · subst hka
          simp [hs, setIndex]
        · simp [hka, setIndex]

theorem forgeScan_none_iff (bit : Fin 2) (i : Fin 256) (ms : List Bytes)
    (sigs : List Signature) :
    forgeScan bit i ms 0 sigs = none ↔
      ms.length < sigs.length ∧ ∀ m ∈ ms, digestBit (sha256Sum256 m) i ≠ bit := by
  induction ms generalizing sigs with
  | nil =>
    cases sigs with
    | nil => simp [forgeScan]
    | cons sig rest => simp [forgeScan_nil_messages]
  | cons m ms ih =>
    cases sigs with
    | nil => simp [forgeScan]
    | cons sig rest =>
      rw [forgeScan_cons]
      by_cases hm : digestBit (sha256Sum256 m) i = bit
      · simp [hm]
      · simp [hm, ih]

theorem forgeScan_first_match (bit : Fin 2) (i : Fin 256) (ms : List Bytes)
    (sigs : List Signature) (j : Nat) (m : Bytes) (sig : Signature)
    (hm : ms.get? j = some m) (hs : sigs.get? j = some sig)
    (hbit : digestBit (sha256Sum256 m) i = bit)
    (hfirst : ∀ j', j' < j → ∀ m', ms.get? j' = some m' → digestBit (sha256Sum256 m') i ≠ bit) :
    forgeScan bit i ms 0 sigs = some (some (sig i)) := by
  induction ms generalizing sigs j with
  | nil => simp at hm
  | cons m0 ms ih =>
    cases sigs with
    | nil => simp at hs
    | cons s0 rest =>
      rw [forgeScan_cons]
      cases j with
      | zero =>
        simp only [List.get?_cons_zero, Option.some.injEq] at hm hs
        subst hm; subst hs
        simp [hbit]
      | succ j =>
        simp only [List.get?_cons_succ] at hm hs
        have h0 : digestBit (sha256Sum256 m0) i ≠ bit :=
          hfirst 0 (Nat.succ_pos j) m0 (by simp)
        rw [if_neg h0]
        exact ih rest j hm hs (fun j' hj' m' hm' =>
          hfirst (j' + 1) (Nat.succ_lt_succ hj') m' (by simpa using hm'))

theorem forgeScan_no_match (bit : Fin 2) (i : Fin 256) (ms : List Bytes)
    (sigs : List Signature) (hlen : sigs.length ≤ ms.length)
    (hno : ∀ j, j < sigs.length → ∀ m, ms.get? j = some m →
      digestBit (sha256Sum256 m) i ≠ bit) :
    forgeScan bit i ms 0 sigs = some none := by
  induction ms generalizing sigs with
  | nil =>
    cases sigs with
    | nil => rfl
    | cons sig rest => simp at hlen
  | cons m0 ms ih =>
    cases sigs with
    | nil => rfl
    | cons s0 rest =>
      rw [forgeScan_cons]
      have h0 : digestBit (sha256Sum256 m0) i ≠ bit := hno 0 (by simp) m0 (by simp)
      rw [if_neg h0]
      exact ih rest (by simpa using hlen) (fun j hj m' hm' =>
        hno (j + 1) (by simpa using hj) m' (by simpa using hm'))

theorem ForgeSignature_isSome (target : Bytes) (ms : List Bytes) (sigs : List Signature)
    (hlen : sigs.length ≤ ms.length) : ∃ forged, ForgeSignature target ms sigs = some forged := by
  cases h : ForgeSignature target ms sigs with
  | some g => exact ⟨g, rfl⟩
  | none =>
    exfalso
    unfold ForgeSignature at h
    obtain ⟨i, _, hi⟩ := (forgeLoop_none_iff _ _ _ _ _).1 h
    have := ((forgeScan_none_iff _ _ _ _).1 hi).1
    omega

theorem ForgeSignature_apply (target : Bytes) (ms : List Bytes) (sigs : List Signature)
    (forged : Signature) (h : ForgeSignature target ms sigs = some forged) (i : Fin 256) :
    forged i =
      (match forgeScan (digestBit (sha256Sum256 target) i) i ms 0 sigs with
        | some (some v) => v
        | _ => []) := by
  have := forgeLoop_some _ _ _ _ _ _ h i
  simpa [List.mem_finRange, zeroSignature] using this

/-- C5. For parallel corpus lists, `ForgeSignature` returns a signature whose
element at every position `i` is `signatures[j][i]` for the first index `j`
whose message digest has the same bit `i` as the target digest, and the empty
placeholder when no corpus index has that bit. -/
theorem ForgeSignature_first_match (target : Bytes) (messages : List Bytes)
    (signatures : List Signature) (hlen : messages.length = signatures.length) :
    ∃ forged, ForgeSignature target messages signatures = some forged ∧
      ∀ i : Fin 256,
        (∀ j m sig, messages.get? j = some m → signatures.get? j = some sig →
          digestBit (sha256Sum256 m) i = digestBit (sha256Sum256 target) i →
          (∀ j', j' < j → ∀ m', messages.get? j' = some m' →
            digestBit (sha256Sum256 m') i ≠ digestBit (sha256Sum256 target) i) →
          forged i = sig i) ∧
        ((∀ j m, messages.get? j = some m →
            digestBit (sha256Sum256 m) i ≠ digestBit (sha256Sum256 target) i) →
          forged i = []) := by
  obtain ⟨forged, hf⟩ := ForgeSignature_isSome target messages signatures (by omega)
  refine ⟨forged, hf, fun i => ⟨?_, ?_⟩⟩
  · intro j m sig hm hs hbit hfirst
    rw [ForgeSignature_apply _ _ _ _ hf i, forgeScan_first_match _ i _ _ j m sig hm hs hbit hfirst]
  · intro hno
    rw [ForgeSignature_apply _ _ _ _ hf i,
      forgeScan_no_match _ i _ _ (by omega) (fun j _ m hm => hno j m hm)]

theorem signAll_length (messages : List Bytes) (sk : PrivateKey) :
    (signAll messages sk).length = messages.length := by
  simp [signAll]

theorem ForgeSignature_first_match_witness :
    sampleMessages.length = (signAll sampleMessages samplePrivateKey).length ∧
      ∃ forged, ForgeSignature forgedMessage sampleMessages
        (signAll sampleMessages samplePrivateKey) = some forged :=
  ⟨(signAll_length _ _).symm,
    (ForgeSignature_first_match forgedMessage sampleMessages
      (signAll sampleMessages samplePrivateKey) (signAll_length _ _).symm).imp fun _ h => h.1⟩

theorem forgeScan_signAll (sk : PrivateKey) (bit : Fin 2) (i : Fin 256) (ms : List Bytes) :
    forgeScan bit i ms 0 (signAll ms sk) =
      some (if ∃ m ∈ ms, digestBit (sha256Sum256 m) i = bit then some (sk.Pairs i bit)
        else none) := by
  induction ms with
  | nil => simp [signAll, forgeScan]
  | cons m ms ih =>
    have hs : signAll (m :: ms) sk = Sign m sk :: signAll ms sk := rfl
    rw [hs, forgeScan_cons]
    by_cases hm : digestBit (sha256Sum256 m) i = bit
    · simp [hm, sign_apply]
    · simp [hm, ih]

theorem forge_signed_corpus (sk : PrivateKey) (target : Bytes) (ms : List Bytes) :
    ∃ forged, ForgeSignature target ms (signAll ms sk) = some forged ∧
      ∀ i : Fin 256, forged i =
        if ∃ m ∈ ms, digestBit (sha256Sum256 m) i = digestBit (sha256Sum256 target) i
        then Sign target sk i else [] := by
  obtain ⟨forged, hf⟩ := ForgeSignature_isSome target ms (signAll ms sk)
    (by rw [signAll_length])
  refine ⟨forged, hf, fun i => ?_⟩
  rw [ForgeSignature_apply _ _ _ _ hf i, forgeScan_signAll, sign_apply]
  by_cases hc : ∃ m ∈ ms, digestBit (sha256Sum256 m) i = digestBit (sha256Sum256 target) i
  · simp [hc]
  · simp [hc]

theorem forge_uncovered_fails (sk : PrivateKey) (pk : PublicKey) (target : Bytes)
    (ms : List Bytes) (i : Fin 256)
    (hunc : ∀ m ∈ ms, digestBit (sha256Sum256 m) i ≠ digestBit (sha256Sum256 target) i)
    (hne : pk.Hashes i (digestBit (sha256Sum256 target) i) ≠ sha256Sum256 []) :
    ∃ forged, ForgeSignature target ms (signAll ms sk) = some forged ∧
      Verify target forged pk = false := by
  obtain ⟨forged, hf, hval⟩ := forge_signed_corpus sk target ms
  refine ⟨forged, hf, ?_⟩
  cases hv : Verify target forged pk
  · rfl
  · exfalso
    have h1 := (verify_iff _ _ _).1 hv i
    have hc : ¬ ∃ m ∈ ms, digestBit (sha256Sum256 m) i = digestBit (sha256Sum256 target) i := by
      rintro ⟨m, hm, he⟩
      exact hunc m hm he
    rw [hval i, if_neg hc] at h1
    exact hne h1.symm

/-- C6. When the corpus was signed under `sk` and, at every position, some
corpus message's digest has the same bit as the target digest, the signature
`ForgeSignature` builds from the corpus alone (it takes no private key) verifies
for the target under the public key of `sk`. -/
theorem forgery_verifies_when_covered (sk : PrivateKey) (pk : PublicKey) (hk : KeyPair sk pk)
    (target : Bytes) (messages : List Bytes)
    (hcov : ∀ i : Fin 256, ∃ m ∈ messages,
      digestBit (sha256Sum256 m) i = digestBit (sha256Sum256 target) i) :
    ∃ forged, ForgeSignature target messages (signAll messages sk) = some forged ∧
      Verify target forged pk = true := by
  obtain ⟨forged, hf, hval⟩ := forge_signed_corpus sk target messages
  refine ⟨forged, hf, ?_⟩
  rw [verify_iff]
  intro i
  rw [hval i, if_pos (hcov i), sign_apply, hk]

/-- C19. On a corpus signed under `sk`, the forged element at every covered
position is the element the signer would produce for the target; when all 256
positions are covered the forged signature is `Sign target sk`. -/
theorem forged_element_is_genuine (sk : PrivateKey) (target : Bytes) (messages : List Bytes) :
    ∃ forged, ForgeSignature target messages (signAll messages sk) = some forged ∧
      (∀ i : Fin 256,
        (∃ m ∈ messages, digestBit (sha256Sum256 m) i = digestBit (sha256Sum256 target) i) →
        forged i = Sign target sk i) ∧
      ((∀ i : Fin 256, ∃ m ∈ messages,
          digestBit (sha256Sum256 m) i = digestBit (sha256Sum256 target) i) →
        forged = Sign target sk) := by
  obtain ⟨forged, hf, hval⟩ := forge_signed_corpus sk target messages
  refine ⟨forged, hf, ?_, ?_⟩
  · intro i hc
    rw [hval i, if_pos hc]
  · intro hall
    funext i
    rw [hval i, if_pos (hall i)]

theorem tenMessages_cover :
    ∀ i : Fin 256, ∃ m ∈ tenMessages,
      digestBit (sha256Sum256 m) i = digestBit (sha256Sum256 forgedMessage) i := by
  decide!

theorem forgery_verifies_when_covered_witness :
    KeyPair samplePrivateKey (publicOf samplePrivateKey) ∧
      (∀ i : Fin 256, ∃ m ∈ tenMessages,
        digestBit (sha256Sum256 m) i = digestBit (sha256Sum256 forgedMessage) i) ∧
      ∃ forged, ForgeSignature forgedMessage tenMessages
          (signAll tenMessages samplePrivateKey) = some forged ∧
        Verify forgedMessage forged (publicOf samplePrivateKey) = true :=
  ⟨keyPair_publicOf _, tenMessages_cover,
    forgery_verifies_when_covered samplePrivateKey (publicOf samplePrivateKey)
      (keyPair_publicOf _) forgedMessage tenMessages tenMessages_cover⟩

/-- C8. On the corpus "Message 1" .. "Message 4" signed with the sample key
(512 distinct 32-byte secrets), no corpus digest shares bit 0 with the digest of
the forged message, so `ForgeSignature` leaves position 0 empty and `Verify`
rejects the forged signature. -/
theorem canonical_forgery_fails :
    KeyPair samplePrivateKey (publicOf samplePrivateKey) ∧
      (∀ m ∈ sampleMessages,
        digestBit (sha256Sum256 m) 0 ≠ digestBit (sha256Sum256 forgedMessage) 0) ∧
      ∃ forged, ForgeSignature forgedMessage sampleMessages
          (signAll sampleMessages samplePrivateKey) = some forged ∧
        forged 0 = [] ∧
        Verify forgedMessage forged (publicOf samplePrivateKey) = false := by
  have hunc : ∀ m ∈ sampleMessages,
      digestBit (sha256Sum256 m) 0 ≠ digestBit (sha256Sum256 forgedMessage) 0 := by decide!
  refine ⟨keyPair_publicOf _, hunc, ?_⟩
  obtain ⟨forged, hf, hval⟩ := forge_signed_corpus samplePrivateKey forgedMessage sampleMessages
  obtain ⟨forged2, hf2, hv⟩ := forge_uncovered_fails samplePrivateKey
    (publicOf samplePrivateKey) forgedMessage sampleMessages 0 hunc (by decide!)
  have he : forged2 = forged := Option.some.inj (hf2.symm.trans hf)
  refine ⟨forged, hf, ?_, he ▸ hv⟩
  rw [hval 0, if_neg]
  rintro ⟨m, hm, hbit⟩
  exact hunc m hm hbit

/-! ## Proof of work -/

theorem tdiv_toNat_of_nonpos (d : Int) (hd : d ≤ 0) : (d.tdiv 8).toNat = 0 := by
  cases d with
  | ofNat n =>
    have : n = 0 := by
      have h := Int.ofNat_le.1 (show Int.ofNat n ≤ Int.ofNat 0 from hd)
      omega
    subst this
    rfl
  | negSucc n =>
    show (Int.tdiv (Int.negSucc n) (Int.ofNat 8)).toNat = 0
    simp only [Int.tdiv]
    have : -(Int.ofNat ((n + 1) / 8)) ≤ 0 := by
      have : (0 : Int) ≤ Int.ofNat ((n + 1) / 8) := Int.ofNat_nonneg _
      omega
    exact Int.toNat_eq_zero.2 this

theorem tmod_nonpos_of_nonpos (d : Int) (hd : d ≤ 0) : ¬ d.tmod 8 > 0 := by
  cases d with
  | ofNat n =>
    have : n = 0 := by
      have h := Int.ofNat_le.1 (show Int.ofNat n ≤ Int.ofNat 0 from hd)
      omega
    subst this
    decide
  | negSucc n =>
    show ¬ Int.tmod (Int.negSucc n) (Int.ofNat 8) > 0
    simp only [Int.tmod]
    have : (0 : Int) ≤ Int.ofNat (n.succ % 8) := Int.ofNat_nonneg _
    omega

theorem tdiv_natCast (n : Nat) : ((n : Int).tdiv 8).toNat = n / 8 := by
  rw [Int.tdiv_eq_ediv (by omega) (by omega)]
  omega

theorem tmod_natCast (n : Nat) : (n : Int).tmod 8 = ((n % 8 : Nat) : Int) := by
  rw [Int.tmod_eq_emod (by omega) (by omega)]
  omega

theorem topMask_natCast (r : Nat) : topMask (r : Int) = (0xFF <<< (8 - r)) % 256 := by
  unfold topMask
  congr 2
  omega

/-- The validity test of `Mine` is the test of `checkLeadingZeros`, for every
difficulty. -/
theorem mineValid_eq_checkLeadingZeros (hash : Bytes) (d : Int) :
    mineValid hash (d.tdiv 8) (d.tmod 8) (if d.tmod 8 > 0 then topMask (d.tmod 8) else 0)
      = checkLeadingZeros hash d := by
  unfold mineValid checkLeadingZeros
  by_cases hd : d ≤ 0
  · simp only [hd, if_true, tdiv_toNat_of_nonpos d hd, zeroBytesLoop,
      if_neg (tmod_nonpos_of_nonpos d hd)]
  · simp only [hd, if_false]
    by_cases hr : d.tmod 8 > 0
    · simp only [hr, if_true]
    · simp only [hr, if_false]

theorem get?_eq_some_getD (h : Bytes) (i : Nat) (hi : i < h.length) :
    h.get? i = some (h.getD i 0) := by
  simp [List.getD_eq_getElem?_getD, List.getElem?_eq_getElem hi]

theorem get?_eq_none_of_le (h : Bytes) (i : Nat) (hi : h.length ≤ i) : h.get? i = none := by
  simp [List.getElem?_eq_none hi]

theorem zeroBytesLoop_succ_some (h : Bytes) (n i b : Nat) (hget : h.get? i = some b) :
    zeroBytesLoop h (n + 1) i = if b = 0 then zeroBytesLoop h n (i + 1) else some false := by
  simp only [zeroBytesLoop, hget]
  by_cases hb : b = 0 <;> simp [hb]

theorem zeroBytesLoop_succ_none (h : Bytes) (n i : Nat) (hget : h.get? i = none) :
    zeroBytesLoop h (n + 1) i = none := by
  simp only [zeroBytesLoop, hget]

theorem zeroBytesLoop_in_range (h : Bytes) (n i : Nat) (hlen : i + n ≤ h.length) :
    ∃ b, zeroBytesLoop h n i = some b ∧ (b = true ↔ ∀ k, k < n → h.getD (i + k) 0 = 0) := by
  induction n generalizing i with
  | zero => exact ⟨true, rfl, by simp⟩
  | succ n ih =>
    rw [zeroBytesLoop_succ_some h n i _ (get?_eq_some_getD h i (by omega))]
    by_cases hz : h.getD i 0 = 0
    · obtain ⟨b, hb, hiff⟩ := ih (i + 1) (by omega)
      refine ⟨b, by rw [if_pos hz, hb], ?_⟩
      rw [hiff]
      constructor
      · intro hall k hk
        cases k with
        | zero => exact hz
        | succ k =>
          have := hall k (by omega)
          rwa [show i + 1 + k = i + (k + 1) by omega] at this
      · intro hall k hk
        have := hall (k + 1) (by omega)
        rwa [show i + (k + 1) = i + 1 + k by omega] at this
    · refine ⟨false, by rw [if_neg hz], ?_⟩
      constructor
      · intro hf; exact absurd hf (by decide)
      · intro hall
        exact absurd (hall 0 (by omega)) hz

theorem zeroBytesLoop_short (h : Bytes) (n i : Nat) (hlen : h.length < i + n) (hi : i ≤ h.length) :
    zeroBytesLoop h n i ≠ some true := by
  induction n generalizing i with
  | zero => omega
  | succ n ih =>
    by_cases hil : i < h.length
    · rw [zeroBytesLoop_succ_some h n i _ (get?_eq_some_getD h i hil)]
      by_cases hz : h.getD i 0 = 0
      · rw [if_pos hz]
        exact ih (i + 1) (by omega) (by omega)
      · rw [if_neg hz]
        exact fun hc => absurd (Option.some.inj hc) (by decide)
    · rw [zeroBytesLoop_succ_none h n i (get?_eq_none_of_le h i (by omega))]
      exact fun hc => Option.noConfusion hc

theorem checkLeadingZeros_natCast (h : Bytes) (n : Nat) :
    checkLeadingZeros h (n : Int) =
      if n = 0 then some true
      else
        match zeroBytesLoop h (n / 8) 0 with
        | none => none
        | some false => some false
        | some true =>
            if n % 8 > 0 then
              match h.get? (n / 8) with
              | none => none
              | some b => some (b &&& ((0xFF <<< (8 - n % 8)) % 256) == 0)
            else some true := by
  unfold checkLeadingZeros
  by_cases hn : n = 0
  · subst hn; rfl
  · have hpos : ¬ ((n : Int) ≤ 0) := by omega
    simp only [hpos, hn, if_false, tdiv_natCast, tmod_natCast, topMask_natCast]
    have hc : ((↑(n % 8) : Int) > 0) ↔ n % 8 > 0 := by omega
    simp only [hc]

theorem mask_zero_iff : ∀ r, r < 8 → ∀ b, b < 256 →
    ((b &&& ((0xFF <<< (8 - r)) % 256) == 0) = true ↔
      ∀ t, t < r → (b >>> (7 - t)) &&& 1 = 0) := by
  decide!

theorem byte_zero_iff : ∀ b, b < 256 →
    (b = 0 ↔ ∀ t, t < 8 → (b >>> (7 - t)) &&& 1 = 0) := by
  decide!

theorem getD_lt (h : Bytes) (hb : ∀ x ∈ h, x < 256) (j : Nat) : h.getD j 0 < 256 := by
  by_cases hj : j < h.length
  · rw [List.getD_eq_getElem _ _ hj]
    exact hb _ (List.getElem_mem _)
  · rw [List.getD_eq_default _ _ (by omega)]
    decide

theorem leadingZeroBytes_iff_bits (h : Bytes) (hb : ∀ x ∈ h, x < 256) (d : Nat) :
    leadingZeroBytes h d ↔ leadingZeroBits h d := by
  unfold leadingZeroBytes leadingZeroBits msbBit
  constructor
  · rintro ⟨hfull, hrem⟩ k hk
    by_cases hj : k / 8 < d / 8
    · exact ((byte_zero_iff _ (getD_lt h hb _)).1 (hfull _ hj)) (k % 8) (Nat.mod_lt _ (by decide))
    · have hkd : k / 8 = d / 8 := by omega
      have hlt : k % 8 < d % 8 := by omega
      rw [hkd]
      exact hrem (by omega) (k % 8) hlt
  · intro hall
    refine ⟨fun j hj => ?_, fun _ t ht => ?_⟩
    · refine (byte_zero_iff _ (getD_lt h hb _)).2 (fun t ht => ?_)
      have := hall (8 * j + t) (by omega)
      rwa [show (8 * j + t) / 8 = j by omega, show (8 * j + t) % 8 = t by omega] at this
    · have := hall (8 * (d / 8) + t) (by omega)
      rwa [show (8 * (d / 8) + t) / 8 = d / 8 by omega,
        show (8 * (d / 8) + t) % 8 = t by omega] at this

theorem checkLeadingZeros_spec (h : Bytes) (hlen : h.length = 32) (hb : ∀ x ∈ h, x < 256)
    (n : Nat) (hn : n ≤ 256) :
    ∃ b, checkLeadingZeros h (n : Int) = some b ∧ (b = true ↔ leadingZeroBytes h n) := by
  rw [checkLeadingZeros_natCast]
  by_cases h0 : n = 0
  · subst h0
    exact ⟨true, rfl, by simp [leadingZeroBytes]⟩
  · rw [if_neg h0]
    obtain ⟨b, hz, hiff⟩ := zeroBytesLoop_in_range h (n / 8) 0 (by omega)
    rw [hz]
    cases b with
    | false =>
      refine ⟨false, rfl, ?_⟩
      constructor
      · intro hf; exact absurd hf (by decide)
      · rintro ⟨hfull, _⟩
        exact hiff.2 (fun k hk => by simpa using hfull k hk)
    | true =>
      have hfull : ∀ j, j < n / 8 → h.getD j 0 = 0 := fun j hj => by
        simpa using hiff.1 rfl j hj
      by_cases hr : n % 8 > 0
      · simp only [hr, if_true]
        rw [get?_eq_some_getD h (n / 8) (by omega)]
        refine ⟨_, rfl, ?_⟩
        rw [mask_zero_iff (n % 8) (Nat.mod_lt _ (by decide)) _ (getD_lt h hb _)]
        exact ⟨fun hm => ⟨hfull, fun _ => hm⟩, fun hz => hz.2 (by omega)⟩
      · simp only [hr, if_false]
        exact ⟨true, rfl, by simp only [true_iff]; exact ⟨hfull, fun hne => absurd hne (by omega)⟩⟩

theorem mineLoop_found (p : Bytes) (fb rb : Int) (tm : Nat) (fuel start n : Nat) (h : Bytes)
    (hm : mineLoop p fb rb tm fuel start = some (n, some h)) :
    start ≤ n ∧ n < start + fuel ∧ h = sha256Sum256 (p ++ putUint64 n) ∧
      mineValid h fb rb tm = some true ∧
      ∀ m, start ≤ m → m < n →
        mineValid (sha256Sum256 (p ++ putUint64 m)) fb rb tm = some false := by
  induction fuel generalizing start with
  | zero => simp [mineLoop] at hm
  | succ fuel ih =>
    simp only [mineLoop] at hm
    cases hv : mineValid (sha256Sum256 (p ++ putUint64 start)) fb rb tm with
    | none => rw [hv] at hm; simp at hm
    | some b =>
      rw [hv] at hm
      cases b with
      | true =>
        simp only [Option.some.injEq, Prod.mk.injEq] at hm
        obtain ⟨h1, h2⟩ := hm
        subst h1; subst h2
        exact ⟨le_refl _, by omega, rfl, hv, fun m h1 h2 => by omega⟩
      | false =>
        simp only at hm
        obtain ⟨a1, a2, a3, a4, a5⟩ := ih (start + 1) hm
        refine ⟨by omega, by omega, a3, a4, fun m h1 h2 => ?_⟩
        by_cases hms : m = start
        · rw [hms]; exact hv
        · exact a5 m (by omega) h2

theorem mineLoop_notFound (p : Bytes) (fb rb : Int) (tm : Nat) (fuel start k : Nat)
    (hm : mineLoop p fb rb tm fuel start = some (k, none)) :
    k = 0 ∧ ∀ m, start ≤ m → m < start + fuel →
      mineValid (sha256Sum256 (p ++ putUint64 m)) fb rb tm = some false := by
  induction fuel generalizing start with
  | zero =>
    simp only [mineLoop, Option.some.injEq, Prod.mk.injEq] at hm
    exact ⟨hm.1.symm, fun m h1 h2 => by omega⟩
  | succ fuel ih =>
    simp only [mineLoop] at hm
    cases hv : mineValid (sha256Sum256 (p ++ putUint64 start)) fb rb tm with
    | none => rw [hv] at hm; simp at hm
    | some b =>
      rw [hv] at hm
      cases b with
      | true => simp at hm
      | false =>
        simp only at hm
        obtain ⟨a1, a2⟩ := ih (start + 1) hm
        refine ⟨a1, fun m h1 h2 => ?_⟩
        by_cases hms : m = start
        · rw [hms]; exact hv
        · exact a2 m (by omega) (by omega)

theorem mineLoop_finds (p : Bytes) (fb rb : Int) (tm : Nat) (fuel start n : Nat)
    (h1 : start ≤ n) (h2 : n < start + fuel)
    (hv : mineValid (sha256Sum256 (p ++ putUint64 n)) fb rb tm = some true)
    (hbelow : ∀ m, start ≤ m → m < n →
      mineValid (sha256Sum256 (p ++ putUint64 m)) fb rb tm = some false) :
    mineLoop p fb rb tm fuel start = some (n, some (sha256Sum256 (p ++ putUint64 n))) := by
  induction fuel generalizing start with
  | zero => omega
  | succ fuel ih =>
    simp only [mineLoop]
    by_cases hs : start = n
    · subst hs
      rw [hv]
    · rw [hbelow start (le_refl _) (by omega)]
      exact ih (start + 1) (by omega) (by omega) (fun m a b => hbelow m (by omega) b)

theorem Mine_eq (p : Bytes) (d : Int) :
    Mine p d = mineLoop p (d.tdiv 8) (d.tmod 8)
      (if d.tmod 8 > 0 then topMask (d.tmod 8) else 0) maxNonce 0 := rfl

/-- What a found result of `Mine` satisfies, for every difficulty. -/
theorem Mine_found (p : Bytes) (d : Int) (n : Nat) (h : Bytes)
    (hm : Mine p d = some (n, some h)) :
    n < maxNonce ∧ h = sha256Sum256 (p ++ putUint64 n) ∧ checkLeadingZeros h d = some true ∧
      ∀ m, m < n → checkLeadingZeros (sha256Sum256 (p ++ putUint64 m)) d = some false := by
  rw [Mine_eq] at hm
  obtain ⟨_, a2, a3, a4, a5⟩ := mineLoop_found _ _ _ _ _ _ _ _ hm
  refine ⟨by omega, a3, ?_, fun m hmn => ?_⟩
  · rw [← mineValid_eq_checkLeadingZeros]; exact a4
  · rw [← mineValid_eq_checkLeadingZeros]; exact a5 m (Nat.zero_le _) hmn

theorem Mine_notFound (p : Bytes) (d : Int) (k : Nat) (hm : Mine p d = some (k, none)) :
    k = 0 ∧ ∀ m, m < maxNonce →
      checkLeadingZeros (sha256Sum256 (p ++ putUint64 m)) d = some false := by
  rw [Mine_eq] at hm
  obtain ⟨a1, a2⟩ := mineLoop_notFound _ _ _ _ _ _ _ hm
  refine ⟨a1, fun m hmn => ?_⟩
  rw [← mineValid_eq_checkLeadingZeros]
  exact a2 m (Nat.zero_le _) (by omega)

theorem mine_a_8 :
    Mine (asciiBytes "a") 8 = some (6, some (sha256Sum256 (asciiBytes "a" ++ putUint64 6))) := by
  decide!

/-- C9. For a difficulty in [0, 256], a found result `(n, d)` of `Mine` has
`d` equal to the digest of the prefix followed by the 8-byte big-endian
encoding of `n`, and `checkLeadingZeros d difficulty` is true. -/
theorem Mine_result_valid (p : Bytes) (difficulty : Int) (h0 : 0 ≤ difficulty)
    (h256 : difficulty ≤ 256) (n : Nat) (d : Bytes)
    (hm : Mine p difficulty = some (n, some d)) :
    d = sha256Sum256 (p ++ putUint64 n) ∧ checkLeadingZeros d difficulty = some true := by
  obtain ⟨_, a2, a3, _⟩ := Mine_found p difficulty n d hm
  exact ⟨a2, a3⟩

theorem Mine_result_valid_witness :
    (0 : Int) ≤ 8 ∧ (8 : Int) ≤ 256 ∧
      Mine (asciiBytes "a") 8
        = some (6, some (sha256Sum256 (asciiBytes "a" ++ putUint64 6))) ∧
      checkLeadingZeros (sha256Sum256 (asciiBytes "a" ++ putUint64 6)) 8 = some true :=
  ⟨by decide, by decide, mine_a_8,
    (Mine_result_valid (asciiBytes "a") 8 (by decide) (by decide) 6 _ mine_a_8).2⟩

/-- C10. For a difficulty in [0, 256], when `Mine` returns a found nonce `n`,
the digest of every smaller nonce fails the leading-zero test and the digest of
`n` passes it: `n` is the smallest qualifying nonce. -/
theorem Mine_result_minimal (p : Bytes) (difficulty : Int) (h0 : 0 ≤ difficulty)
    (h256 : difficulty ≤ 256) (n : Nat) (d : Bytes)
    (hm : Mine p difficulty = some (n, some d)) :
    (∀ m, m < n →
      checkLeadingZeros (sha256Sum256 (p ++ putUint64 m)) difficulty = some false) ∧
    checkLeadingZeros (sha256Sum256 (p ++ putUint64 n)) difficulty = some true := by
  obtain ⟨_, a2, a3, a4⟩ := Mine_found p difficulty n d hm
  exact ⟨a4, a2 ▸ a3⟩

theorem Mine_result_minimal_witness :
    (0 : Int) ≤ 8 ∧ (8 : Int) ≤ 256 ∧
      ∀ m, m < 6 →
        checkLeadingZeros (sha256Sum256 (asciiBytes "a" ++ putUint64 m)) 8 = some false :=
  ⟨by decide, by decide,
    (Mine_result_minimal (asciiBytes "a") 8 (by decide) (by decide) 6 _ mine_a_8).1⟩

theorem maxNonce_succ : maxNonce = (2 ^ 64 - 2) + 1 := by decide

theorem mineValid_nonpos (h : Bytes) (d : Int) (hd : d ≤ 0) :
    mineValid h (d.tdiv 8) (d.tmod 8) (if d.tmod 8 > 0 then topMask (d.tmod 8) else 0)
      = some true := by
  rw [mineValid_eq_checkLeadingZeros]
  simp [checkLeadingZeros, hd]

theorem mineLoop_first (p : Bytes) (d : Int) (hd : d ≤ 0) (fuel : Nat) :
    mineLoop p (d.tdiv 8) (d.tmod 8) (if d.tmod 8 > 0 then topMask (d.tmod 8) else 0)
      (fuel + 1) 0 = some (0, some (sha256Sum256 (p ++ putUint64 0))) := by
  simp only [mineLoop, mineValid_nonpos _ d hd]

theorem Mine_nonpos (p : Bytes) (d : Int) (hd : d ≤ 0) :
    Mine p d = some (0, some (sha256Sum256 (p ++ putUint64 0))) := by
  rw [Mine_eq, maxNonce_succ]
  exact mineLoop_first p d hd _

/-- C13. With difficulty 0, `Mine` returns nonce 0 and the 32-byte digest of
the prefix followed by eight zero bytes; the result is produced by the first
iteration of the search loop, whatever number of further iterations remains. -/
theorem Mine_zero_difficulty (p : Bytes) :
    Mine p 0 = some (0, some (sha256Sum256 (p ++ [0, 0, 0, 0, 0, 0, 0, 0]))) ∧
      (sha256Sum256 (p ++ [0, 0, 0, 0, 0, 0, 0, 0])).length = 32 ∧
      sha256Sum256 (p ++ [0, 0, 0, 0, 0, 0, 0, 0]) ≠ [] ∧
      ∀ fuel, mineLoop p 0 0 0 (fuel + 1) 0
        = some (0, some (sha256Sum256 (p ++ [0, 0, 0, 0, 0, 0, 0, 0]))) := by
  have hz : putUint64 0 = [0, 0, 0, 0, 0, 0, 0, 0] := by decide
  refine ⟨?_, sha256Sum256_length _, ?_, fun fuel => ?_⟩
  · rw [← hz]; exact Mine_nonpos p 0 (le_refl _)
  · intro he
    have := sha256Sum256_length (p ++ [0, 0, 0, 0, 0, 0, 0, 0])
    rw [he] at this
    simp at this
  · rw [← hz]; exact mineLoop_first p 0 (le_refl _) fuel

theorem mineValid_not_true_of_large (h : Bytes) (hlen : h.length = 32) (d : Int)
    (hd : 256 < d) (tm : Nat) : mineValid h (d.tdiv 8) (d.tmod 8) tm ≠ some true := by
  obtain ⟨n, rfl⟩ := Int.eq_ofNat_of_zero_le (show (0 : Int) ≤ d by omega)
  have hn : 256 < n := by omega
  unfold mineValid
  rw [tdiv_natCast, tmod_natCast]
  by_cases h8 : 32 < n / 8
  · have hz := zeroBytesLoop_short h (n / 8) 0 (by omega) (Nat.zero_le _)
    cases hc : zeroBytesLoop h (n / 8) 0 with
    | none => simp
    | some b =>
      cases b with
      | false => simp
      | true => exact absurd hc hz
  · have h32 : n / 8 = 32 := by omega
    have hr : ((↑(n % 8) : Int) > 0) := by omega
    rw [h32, get?_eq_none_of_le h 32 (by omega)]
    cases zeroBytesLoop h 32 0 with
    | none => simp
    | some b =>
      cases b with
      | false => simp
      | true =>
        simp
        omega

/-- C12, counterexample. Called with difficulty -1, `Mine` does not reject the
request: it returns nonce 0 as found, with the digest of the prefix followed by
eight zero bytes. -/
theorem Mine_accepts_negative_difficulty :
    ¬ ((0 : Int) ≤ -1 ∧ (-1 : Int) ≤ 256) ∧
      Mine (asciiBytes "test") (-1)
        = some (0, some (sha256Sum256 (asciiBytes "test" ++ [0, 0, 0, 0, 0, 0, 0, 0]))) := by
  refine ⟨by decide, ?_⟩
  exact Mine_nonpos (asciiBytes "test") (-1) (by decide)

/-- C12, amended. The range check is made by `main`, which accepts exactly the
difficulties in [0, 256] before any mining; `Mine` itself makes no check: for a
difficulty above 256 it never returns a found nonce, and for a negative
difficulty it returns nonce 0 as found with the digest of the prefix followed by
the encoding of nonce 0. -/
theorem invalid_difficulty_behaviour :
    (∀ d : Int, difficultyAccepted d = true ↔ (0 ≤ d ∧ d ≤ 256)) ∧
    (∀ (p : Bytes) (d : Int), 256 < d → ∀ n h, Mine p d ≠ some (n, some h)) ∧
    (∀ (p : Bytes) (d : Int), d < 0 →
      Mine p d = some (0, some (sha256Sum256 (p ++ putUint64 0)))) := by
  refine ⟨fun d => ?_, fun p d hd n h hm => ?_, fun p d hd => Mine_nonpos p d (le_of_lt hd)⟩
  · simp only [difficultyAccepted, Bool.not_eq_true', Bool.or_eq_false_iff,
      decide_eq_false_iff_not]
    omega
  · rw [Mine_eq] at hm
    obtain ⟨_, _, a3, a4, _⟩ := mineLoop_found _ _ _ _ _ _ _ _ hm
    exact mineValid_not_true_of_large h (by rw [a3]; exact sha256Sum256_length _) d hd _ a4

/-- C14. Whatever `Mine` returns: a found result carries a 32-byte digest,
equal to the digest of the prefix and the returned nonce and passing the test;
the result with a nil digest has nonce 0 and is returned only when nonce 0 (and
every nonce below `maxNonce`) fails the test; and the callers' test
`nonce == 0 && hash == nil` is true exactly for the result with a nil digest. -/
theorem notFound_not_conflated (p : Bytes) (d : Int) (nonce : Nat) (hash : Option Bytes)
    (hm : Mine p d = some (nonce, hash)) :
    (∀ h, hash = some h → h.length = 32 ∧ h = sha256Sum256 (p ++ putUint64 nonce) ∧
      checkLeadingZeros h d = some true) ∧
    (hash = none → nonce = 0 ∧
      checkLeadingZeros (sha256Sum256 (p ++ putUint64 0)) d = some false) ∧
    (isNotFound nonce hash = true ↔ hash = none) := by
  cases hash with
  | some h =>
    obtain ⟨_, a2, a3, _⟩ := Mine_found p d nonce h hm
    refine ⟨fun h' he => ?_, fun he => Option.noConfusion he, by simp [isNotFound]⟩
    have : h = h' := Option.some.inj he
    subst this
    exact ⟨by rw [a2]; exact sha256Sum256_length _, a2, a3⟩
  | none =>
    obtain ⟨a1, a2⟩ := Mine_notFound p d nonce hm
    refine ⟨fun h' he => Option.noConfusion he, fun _ => ⟨a1, a2 0 (by decide)⟩, ?_⟩
    simp [isNotFound, a1]

theorem notFound_not_conflated_witness :
    Mine (asciiBytes "a") 8 = some (6, some (sha256Sum256 (asciiBytes "a" ++ putUint64 6))) ∧
      (isNotFound 6 (some (sha256Sum256 (asciiBytes "a" ++ putUint64 6))) = true ↔
        some (sha256Sum256 (asciiBytes "a" ++ putUint64 6)) = none) :=
  ⟨mine_a_8, (notFound_not_conflated (asciiBytes "a") 8 6 _ mine_a_8).2.2⟩

theorem checkLeadingZeros_iff_bits (h : Bytes) (hlen : h.length = 32)
    (hb : ∀ x ∈ h, x < 256) (n : Nat) (hn : n ≤ 256) :
    checkLeadingZeros h (n : Int) = some true ↔ leadingZeroBits h n := by
  obtain ⟨b, hc, hiff⟩ := checkLeadingZeros_spec h hlen hb n hn
  rw [hc, ← leadingZeroBytes_iff_bits h hb n, ← hiff]
  simp

/-- C16. For a 32-byte digest and a difficulty `d` in [0, 256],
`checkLeadingZeros` returns true or false (it never indexes out of range); it
returns true exactly when the first `d / 8` bytes are zero and, when
`d % 8 ≠ 0`, the top `d % 8` bits of byte `d / 8` are zero; and that holds
exactly when the `d` most significant bits of the digest are all zero. -/
theorem checkLeadingZeros_correct (h : Bytes) (hlen : h.length = 32)
    (hb : ∀ x ∈ h, x < 256) (d : Int) (h0 : 0 ≤ d) (h256 : d ≤ 256) :
    (checkLeadingZeros h d = some true ∨ checkLeadingZeros h d = some false) ∧
    (checkLeadingZeros h d = some true ↔ leadingZeroBytes h d.toNat) ∧
    (leadingZeroBytes h d.toNat ↔ leadingZeroBits h d.toNat) := by
  obtain ⟨n, rfl⟩ := Int.eq_ofNat_of_zero_le h0
  have hn : n ≤ 256 := by omega
  obtain ⟨b, hc, hiff⟩ := checkLeadingZeros_spec h hlen hb n hn
  simp only [Int.toNat_ofNat]
  refine ⟨?_, ?_, leadingZeroBytes_iff_bits h hb n⟩
  · cases b with
    | true => exact Or.inl hc
    | false => exact Or.inr hc
  · rw [hc, ← hiff]
    simp

theorem checkLeadingZeros_correct_witness :
    (sha256Sum256 (asciiBytes "a" ++ putUint64 6)).length = 32 ∧
      ((0 : Int) ≤ 8 ∧ (8 : Int) ≤ 256) ∧
      (checkLeadingZeros (sha256Sum256 (asciiBytes "a" ++ putUint64 6)) 8 = some true ↔
        leadingZeroBytes (sha256Sum256 (asciiBytes "a" ++ putUint64 6)) (8 : Int).toNat) :=
  ⟨sha256Sum256_length _, ⟨by decide, by decide⟩,
    (checkLeadingZeros_correct (sha256Sum256 (asciiBytes "a" ++ putUint64 6))
      (sha256Sum256_length _) (sha256Sum256_lt _) 8 (by decide) (by decide)).2.1⟩

theorem mine_b_1 :
    Mine (asciiBytes "b") 1 = some (1, some (sha256Sum256 (asciiBytes "b" ++ putUint64 1))) := by
  decide!

theorem mine_b_3 :
    Mine (asciiBytes "b") 3 = some (2, some (sha256Sum256 (asciiBytes "b" ++ putUint64 2))) := by
  decide!

/-- C20. For difficulties `0 ≤ d1 ≤ d2 ≤ 256`: a 32-byte digest that passes
`checkLeadingZeros` at `d2` passes it at `d1`, and when `Mine` returns found
nonces `n1` for `d1` and `n2` for `d2` on the same prefix, `n1 ≤ n2`. -/
theorem difficulty_monotone (d1 d2 : Int) (h0 : 0 ≤ d1) (h12 : d1 ≤ d2) (h256 : d2 ≤ 256) :
    (∀ h : Bytes, h.length = 32 → (∀ x ∈ h, x < 256) →
      checkLeadingZeros h d2 = some true → checkLeadingZeros h d1 = some true) ∧
    (∀ (p : Bytes) (n1 n2 : Nat) (g1 g2 : Bytes),
      Mine p d1 = some (n1, some g1) → Mine p d2 = some (n2, some g2) → n1 ≤ n2) := by
  obtain ⟨a, rfl⟩ := Int.eq_ofNat_of_zero_le h0
  obtain ⟨b, rfl⟩ := Int.eq_ofNat_of_zero_le (le_trans h0 h12)
  have hab : a ≤ b := by omega
  have hb256 : b ≤ 256 := by omega
  have mono : ∀ h : Bytes, h.length = 32 → (∀ x ∈ h, x < 256) →
      checkLeadingZeros h (b : Int) = some true → checkLeadingZeros h (a : Int) = some true := by
    intro h hlen hb hc
    rw [checkLeadingZeros_iff_bits h hlen hb b hb256] at hc
    rw [checkLeadingZeros_iff_bits h hlen hb a (by omega)]
    exact fun k hk => hc k (by omega)
  refine ⟨mono, fun p n1 n2 g1 g2 hm1 hm2 => ?_⟩
  obtain ⟨_, e2, c2, _⟩ := Mine_found p _ n2 g2 hm2
  obtain ⟨_, _, _, m1⟩ := Mine_found p _ n1 g1 hm1
  by_contra hlt
  have hfail := m1 n2 (by omega)
  have hpass := mono g2 (by rw [e2]; exact sha256Sum256_length _)
    (by rw [e2]; exact sha256Sum256_lt _) c2
  rw [e2] at hpass
  rw [hfail] at hpass
  exact absurd (Option.some.inj hpass) (by decide)

theorem difficulty_monotone_witness :
    ((0 : Int) ≤ 1 ∧ (1 : Int) ≤ 3 ∧ (3 : Int) ≤ 256) ∧
      Mine (asciiBytes "b") 1
        = some (1, some (sha256Sum256 (asciiBytes "b" ++ putUint64 1))) ∧
      Mine (asciiBytes "b") 3
        = some (2, some (sha256Sum256 (asciiBytes "b" ++ putUint64 2))) ∧
      (1 : Nat) ≤ 2 :=
  ⟨⟨by decide, by decide, by decide⟩, mine_b_1, mine_b_3,
    (difficulty_monotone 1 3 (by decide) (by decide) (by decide)).2 (asciiBytes "b") 1 2 _ _
      mine_b_1 mine_b_3⟩

/-- For a difficulty in [0, 256], `Mine` finds a nonce as soon as some nonce
below `maxNonce` qualifies. -/
theorem Mine_finds_below_maxNonce (p : Bytes) (d : Int) (h0 : 0 ≤ d) (h256 : d ≤ 256)
    (n : Nat) (hn : n < maxNonce)
    (hq : checkLeadingZeros (sha256Sum256 (p ++ putUint64 n)) d = some true) :
    ∃ n0, n0 ≤ n ∧ Mine p d = some (n0, some (sha256Sum256 (p ++ putUint64 n0))) := by
  have hex : ∃ m, checkLeadingZeros (sha256Sum256 (p ++ putUint64 m)) d = some true := ⟨n, hq⟩
  have hle : Nat.find hex ≤ n := Nat.find_min' hex hq
  refine ⟨Nat.find hex, hle, ?_⟩
  rw [Mine_eq]
  apply mineLoop_finds _ _ _ _ _ _ _ (Nat.zero_le _) (by omega)
  · rw [mineValid_eq_checkLeadingZeros]; exact Nat.find_spec hex
  · intro m _ hm
    rw [mineValid_eq_checkLeadingZeros]
    have hnot := Nat.find_min hex hm
    obtain ⟨k, rfl⟩ := Int.eq_ofNat_of_zero_le h0
    obtain ⟨b, hb, _⟩ := checkLeadingZeros_spec (sha256Sum256 (p ++ putUint64 m))
      (sha256Sum256_length _) (sha256Sum256_lt _) k (by omega)
    cases b with
    | true => exact absurd hb hnot
    | false => exact hb

/-! ## Key generation -/

theorem randRead_length (rnd : RandSource) (k : Nat) (v : Bytes)
    (h : randRead rnd k = some v) : v.length = 32 := by
  unfold randRead at h
  by_cases hf : rnd.failsAt k = true
  · simp [hf] at h
  · simp only [hf] at h
    have := Option.some.inj h
    rw [← this]
    simp

theorem generateLoop_spec (rnd : RandSource) (l : List (Fin 256 × Fin 2)) (k : Nat)
    (sk0 sk : PrivateKey) (pk0 pk : PublicKey)
    (h : generateLoop rnd l k sk0 pk0 = some (sk, pk)) (x : Fin 256) (y : Fin 2) :
    ((x, y) ∈ l →
      (∃ k', k ≤ k' ∧ k' < k + l.length ∧ randRead rnd k' = some (sk.Pairs x y)) ∧
      pk.Hashes x y = sha256Sum256 (sk.Pairs x y)) ∧
    ((x, y) ∉ l → sk.Pairs x y = sk0.Pairs x y ∧ pk.Hashes x y = pk0.Hashes x y) := by
  induction l generalizing k sk0 pk0 with
  | nil =>
    simp only [generateLoop, Option.some.injEq, Prod.mk.injEq] at h
    obtain ⟨h1, h2⟩ := h
    subst h1; subst h2
    simp
  | cons s rest ih =>
    obtain ⟨i, j⟩ := s
    simp only [generateLoop] at h
    cases hr : randRead rnd k with
    | none => rw [hr] at h; simp at h
    | some v =>
      rw [hr] at h
      simp only at h
      obtain ⟨hin, hout⟩ := ih (k + 1) _ _ h
      by_cases hmem : (x, y) ∈ rest
      · refine ⟨fun _ => ?_, fun hn => absurd (List.mem_cons_of_mem _ hmem) hn⟩
        obtain ⟨⟨k', a1, a2, a3⟩, a4⟩ := hin hmem
        exact ⟨⟨k', by omega, by simp only [List.length_cons]; omega, a3⟩, a4⟩
      · obtain ⟨b1, b2⟩ := hout hmem
        by_cases he : (x, y) = (i, j)
        · have hx : x = i := (Prod.mk.inj he).1
          have hy : y = j := (Prod.mk.inj he).2
          subst hx; subst hy
          have c1 : sk.Pairs x y = v := by rw [b1]; simp [setPair]
          have c2 : pk.Hashes x y = sha256Sum256 v := by rw [b2]; simp [setPair]
          refine ⟨fun _ => ⟨⟨k, le_refl _, by simp only [List.length_cons]; omega, ?_⟩, ?_⟩,
            fun hn => absurd (List.mem_cons_self _ _) hn⟩
          · rw [c1]; exact hr
          · rw [c1, c2]
        · refine ⟨fun hm => ?_, fun _ => ?_⟩
          · rcases List.mem_cons.1 hm with h1 | h1
            · exact absurd h1 he
            · exact absurd h1 hmem
          · have hne : ¬ (x = i ∧ y = j) := fun hc => he (by rw [hc.1, hc.2])
            rw [b1, b2]
            simp [setPair, hne]

theorem mem_keySlots (x : Fin 256) (y : Fin 2) : (x, y) ∈ keySlots := by
  unfold keySlots
  rw [List.mem_flatMap]
  refine ⟨x, List.mem_finRange x, ?_⟩
  fin_cases y
  · simp
  · simp

theorem slots_length (l : List (Fin 256)) :
    (l.flatMap (fun i => [(i, (0 : Fin 2)), (i, (1 : Fin 2))])).length = 2 * l.length := by
  induction l with
  | nil => rfl
  | cons a l ih =>
    simp only [List.flatMap_cons, List.length_append, List.length_cons, ih, List.length_nil]
    omega

theorem keySlots_length : keySlots.length = 512 := by
  unfold keySlots
  rw [slots_length, List.length_finRange]

theorem generateLoop_isSome (rnd : RandSource) (hok : ∀ k, rnd.failsAt k = false)
    (l : List (Fin 256 × Fin 2)) (k : Nat) (sk0 : PrivateKey) (pk0 : PublicKey) :
    ∃ sk pk, generateLoop rnd l k sk0 pk0 = some (sk, pk) := by
  induction l generalizing k sk0 pk0 with
  | nil => exact ⟨sk0, pk0, rfl⟩
  | cons s rest ih =>
    obtain ⟨i, j⟩ := s
    simp only [generateLoop, randRead, hok k]
    exact ih _ _ _

/-- C15. Whenever `GenerateKey` returns, the public key holds the digest of
every secret, every secret is the 32 bytes written by one of the 512 calls of
`rand.Read`, and every public hash has 32 bytes. -/
theorem GenerateKey_invariant (rnd : RandSource) (sk : PrivateKey) (pk : PublicKey)
    (h : GenerateKey rnd = some (sk, pk)) :
    KeyPair sk pk ∧
    (∀ (i : Fin 256) (b : Fin 2),
      (∃ k, k < 512 ∧ randRead rnd k = some (sk.Pairs i b)) ∧ (sk.Pairs i b).length = 32) ∧
    (∀ (i : Fin 256) (b : Fin 2), (pk.Hashes i b).length = 32) := by
  unfold GenerateKey at h
  have key := fun i b =>
    (generateLoop_spec rnd keySlots 0 ⟨fun _ _ => []⟩ sk ⟨fun _ _ => []⟩ pk h i b).1
      (mem_keySlots i b)
  refine ⟨fun i b => (key i b).2, fun i b => ?_, fun i b => ?_⟩
  · obtain ⟨⟨k, _, a2, a3⟩, _⟩ := key i b
    rw [keySlots_length] at a2
    exact ⟨⟨k, by omega, a3⟩, randRead_length rnd k _ a3⟩
  · rw [(key i b).2]
    exact sha256Sum256_length _

theorem GenerateKey_invariant_witness :
    ∃ sk pk, GenerateKey zeroRand = some (sk, pk) ∧ KeyPair sk pk ∧
      (∀ (i : Fin 256) (b : Fin 2), (sk.Pairs i b).length = 32) := by
  obtain ⟨sk, pk, h⟩ := generateLoop_isSome zeroRand (fun _ => rfl) keySlots 0
    ⟨fun _ _ => []⟩ ⟨fun _ _ => []⟩
  exact ⟨sk, pk, h, (GenerateKey_invariant zeroRand sk pk h).1,
    fun i b => ((GenerateKey_invariant zeroRand sk pk h).2.1 i b).2⟩

/-! ## Determinism, byte comparison, and indexing in the forgery -/

theorem signStep_fold (h : Bytes) (l : List (Fin 256)) (st : SignState) :
    (l.foldl (signStep h) st).privateKey = st.privateKey ∧
      (l.foldl (signStep h) st).signature =
        l.foldl (fun s i => setIndex s i (st.privateKey.Pairs i (digestBit h i))) st.signature := by
  induction l generalizing st with
  | nil => exact ⟨rfl, rfl⟩
  | cons a l ih =>
    obtain ⟨h1, h2⟩ := ih (signStep h st a)
    have hkey : (signStep h st a).privateKey = st.privateKey := rfl
    rw [hkey] at h1 h2
    exact ⟨h1, h2⟩

theorem signRun_privateKey (m : Bytes) (sk : PrivateKey) : (signRun m sk).privateKey = sk :=
  (signStep_fold (sha256Sum256 m) (List.finRange 256) ⟨sk, zeroSignature⟩).1

theorem signRun_signature (m : Bytes) (sk : PrivateKey) : (signRun m sk).signature = Sign m sk :=
  (signStep_fold (sha256Sum256 m) (List.finRange 256) ⟨sk, zeroSignature⟩).2

/-- C17. Running `Sign` on a message and a key leaves the key as it was; a
second call on the same message, made on the key as the first call left it,
returns a signature equal to the first at all 256 positions and again leaves
the key as it was; the array each run returns is the value of `Sign`. -/
theorem Sign_deterministic (m : Bytes) (sk : PrivateKey) :
    (signRun m sk).privateKey = sk ∧
      (signRun m (signRun m sk).privateKey).privateKey = sk ∧
      (∀ i : Fin 256,
        (signRun m (signRun m sk).privateKey).signature i = (signRun m sk).signature i) ∧
      (signRun m sk).signature = Sign m sk := by
  have hk := signRun_privateKey m sk
  refine ⟨hk, ?_, ?_, signRun_signature m sk⟩
  · rw [hk]; exact hk
  · intro i
    rw [hk]

theorem equalBytes_append_cons (a : Bytes) (x : Nat) (y : Bytes) :
    equalBytes a (a ++ x :: y) = false := by
  cases h : equalBytes a (a ++ x :: y)
  · rfl
  · have := congrArg List.length ((equalBytes_iff _ _).1 h)
    simp at this

/-- C18. `equalBytes a b` is true exactly when the two slices have the same
length and the same byte at every index; a proper prefix of `b`, and the empty
slice against a non-empty one, compare unequal. -/
theorem equalBytes_full_equality (a b : Bytes) :
    (equalBytes a b = true ↔
      a.length = b.length ∧ ∀ i, i < a.length → a.get? i = b.get? i) ∧
    (∀ (x : Nat) (y : Bytes), equalBytes a (a ++ x :: y) = false) ∧
    (∀ (x : Nat) (y : Bytes), equalBytes [] (x :: y) = false) := by
  refine ⟨?_, equalBytes_append_cons a, fun x y => equalBytes_append_cons [] x y⟩
  rw [equalBytes_iff]
  constructor
  · intro h; subst h; exact ⟨rfl, fun _ _ => rfl⟩
  · rintro ⟨hl, hall⟩
    apply List.ext_get? 
    intro i
    by_cases hi : i < a.length
    · exact hall i hi
    · rw [get?_eq_none_of_le a i (by omega), get?_eq_none_of_le b i (by omega)]

theorem forgeScan_take (bit : Fin 2) (i : Fin 256) (ms : List Bytes) (sigs : List Signature) :
    forgeScan bit i (ms.take sigs.length) 0 sigs = forgeScan bit i ms 0 sigs := by
  induction ms generalizing sigs with
  | nil => simp
  | cons m ms ih =>
    cases sigs with
    | nil => rfl
    | cons s rest =>
      simp only [List.length_cons, List.take_succ_cons, forgeScan_cons, ih]

theorem forgeLoop_congr (h : Bytes) (ms ms' : List Bytes) (sigs : List Signature)
    (hs : ∀ i : Fin 256, forgeScan (digestBit h i) i ms' 0 sigs
      = forgeScan (digestBit h i) i ms 0 sigs)
    (l : List (Fin 256)) (init : Signature) :
    forgeLoop h ms' sigs l init = forgeLoop h ms sigs l init := by
  induction l generalizing init with
  | nil => rfl
  | cons a l ih =>
    simp only [forgeLoop, hs a]
    cases forgeScan (digestBit h a) a ms 0 sigs with
    | none => rfl
    | some r =>
      cases r with
      | none => exact ih _
      | some v => exact ih _

/-- C21. `ForgeSignature` reads `messages[j]` for indices `j` of `signatures`.
With at least as many messages as signatures it returns a signature, the same
as on the first `len(signatures)` messages alone; with fewer messages than
signatures it panics exactly when at some position none of the messages
matches the target bit. -/
theorem ForgeSignature_message_indexing (target : Bytes) (messages : List Bytes)
    (signatures : List Signature) :
    (signatures.length ≤ messages.length →
      (∃ forged, ForgeSignature target messages signatures = some forged) ∧
      ForgeSignature target messages signatures
        = ForgeSignature target (messages.take signatures.length) signatures) ∧
    (messages.length < signatures.length →
      (ForgeSignature target messages signatures = none ↔
        ∃ i : Fin 256, ∀ m ∈ messages,
          digestBit (sha256Sum256 m) i ≠ digestBit (sha256Sum256 target) i)) := by
  refine ⟨fun hle => ⟨ForgeSignature_isSome target messages signatures hle, ?_⟩, fun hlt => ?_⟩
  · unfold ForgeSignature
    exact (forgeLoop_congr _ messages (messages.take signatures.length) signatures
      (fun i => forgeScan_take _ i messages signatures) _ _).symm
  · unfold ForgeSignature
    rw [forgeLoop_none_iff]
    constructor
    · rintro ⟨i, _, hi⟩
      exact ⟨i, ((forgeScan_none_iff _ _ _ _).1 hi).2⟩
    · rintro ⟨i, hi⟩
      exact ⟨i, List.mem_finRange i, (forgeScan_none_iff _ _ _ _).2 ⟨hlt, hi⟩⟩

end LamportPow
